import Mathlib

/-!
Verification of the Zedovium node core (`src/main.py`) against its
natural-language specification.

The Python source is shallowly embedded: Python `float` values that only ever
undergo field arithmetic and comparisons are modelled by `ℚ`, Python `int` by
`ℤ` (or `ℕ` for sizes and indices), Python dictionaries by ordered association
lists (matching insertion-ordered `dict` semantics for `get`/`setitem`), and
mutation of `self` by explicit state passing.  Fallible operations return
`Except`/sum types.  Wall-clock reads (`time.time()`) become an explicit `now`
argument.  The `blake2b` digest used only to mint opaque transaction ids is
abstracted as a function argument `txidOf` (no claim depends on digest values);
`sha256`, whose output shape the address codec claims do depend on, is
implemented concretely below.
-/

set_option maxRecDepth 4000

attribute [local semireducible] Rat.mul Rat.add Rat.sub Rat.inv Rat.ofScientific

namespace Zedovium

/-- ratFloor computes the floor of a rational directly by floor-division of
numerator by denominator (the denominator is positive), keeping every
definition kernel-evaluable. -/
def ratFloor (q : ℚ) : ℤ := Int.fdiv q.num (q.den : ℤ)

/-- pyround models Python's builtin `round` on a real (float) value: round half
to even, returning an integer. -/
def pyround (q : ℚ) : ℤ :=
  let f : ℤ := ratFloor q
  let r : ℚ := q - (f : ℚ)
  if r < 1/2 then f
  else if 1/2 < r then f + 1
  else if f % 2 = 0 then f else f + 1

/-- pyint models Python's builtin `int` on a real (float) value: truncation
toward zero. -/
def pyint (q : ℚ) : ℤ :=
  if 0 ≤ q then ratFloor q else -(ratFloor (-q))

/-- dget models Python `d.get(k, 0)` on a balances dictionary. -/
def dget (d : List (String × ℚ)) (k : String) : ℚ :=
  match d with
  | [] => 0
  | (k', v) :: rest => if k' = k then v else dget rest k

/-- dset models Python `d[k] = v`: replace the value at an existing key,
otherwise append the new key (insertion-ordered dict). -/
def dset (d : List (String × ℚ)) (k : String) (v : ℚ) : List (String × ℚ) :=
  match d with
  | [] => [(k, v)]
  | (k', v') :: rest => if k' = k then (k, v) :: rest else (k', v') :: dset rest k v

/-- Tx is the transaction record built in `BlockChain.new_data`
(`src/main.py` lines 443-451); every transaction that reaches the mempool has
all of these fields. -/
structure Tx where
  sender : String
  recipient : String
  quantity : ℚ
  fee : ℚ
  fee_percent : ℚ
  txid : String
  timestamp : ℚ
  deriving DecidableEq, Repr

/-- MempoolErr mirrors the exception hierarchy `MempoolFullError` /
`DuplicateTxError` (`src/main.py` lines 37-44). -/
inductive MempoolErr where
  | MempoolFull
  | DuplicateTx
  deriving DecidableEq, Repr

/-- Mempool mirrors the `Mempool` class state (`src/main.py` lines 47-55). -/
structure Mempool where
  transactions : List Tx
  max_size : ℕ
  block_tx_limit : ℕ
  base_fee : ℚ
  max_fee : ℚ
  fee_step : ℚ
  deriving DecidableEq, Repr

/-- mkMempool is `Mempool.__init__(max_size=10000, block_tx_limit=512)`. -/
def mkMempool (max_size : ℕ := 10000) (block_tx_limit : ℕ := 512) : Mempool :=
  { transactions := []
    max_size := max_size
    block_tx_limit := block_tx_limit
    base_fee := 1/100
    max_fee := 5/100
    fee_step := 1/1000 }

/-- get_current_fee_percent is `Mempool.get_current_fee_percent`
(`src/main.py` lines 57-67): linear scaling between base and max fee by
mempool fullness, rounded to the nearest fee step. -/
def get_current_fee_percent (mp : Mempool) : ℚ :=
  let mempool_fullness : ℚ := (mp.transactions.length : ℚ) / (mp.max_size : ℚ)
  let dynamic_fee : ℚ :=
    min (mp.base_fee + mempool_fullness * (mp.max_fee - mp.base_fee)) mp.max_fee
  (pyround (dynamic_fee / mp.fee_step) : ℚ) * mp.fee_step

/-- add_transaction is `Mempool.add_transaction` (`src/main.py` lines 69-78):
raise MempoolFull at capacity, DuplicateTx on a txid already pending,
otherwise append. -/
def add_transaction (mp : Mempool) (tx : Tx) : Except MempoolErr Mempool :=
  if mp.transactions.length ≥ mp.max_size then
    .error .MempoolFull
  else if mp.transactions.any (fun t => t.txid == tx.txid) then
    .error .DuplicateTx
  else
    .ok { mp with transactions := mp.transactions ++ [tx] }

/-- insertFeeDesc inserts a transaction into a fee-descending list, after all
already-placed transactions of fee ≥ its own.  Folding it from the right end
of the pending list (`sortFeeDesc`) yields exactly Python's stable
`sorted(..., key=fee, reverse=True)`: descending fee, ties in original
insertion order. -/
def insertFeeDesc (x : Tx) : List Tx → List Tx
  | [] => [x]
  | y :: ys => if y.fee ≤ x.fee then x :: y :: ys else y :: insertFeeDesc x ys

/-- sortFeeDesc is the stable descending-fee sort used by
`Mempool.get_block_candidates` (`src/main.py` lines 82-86). -/
def sortFeeDesc : List Tx → List Tx
  | [] => []
  | x :: xs => insertFeeDesc x (sortFeeDesc xs)

/-- get_block_candidates is `Mempool.get_block_candidates`
(`src/main.py` lines 80-87): the pending list stably sorted by descending fee,
truncated to `block_tx_limit`. -/
def get_block_candidates (mp : Mempool) : List Tx :=
  (sortFeeDesc mp.transactions).take mp.block_tx_limit

/-- remove_confirmed is `Mempool.remove_confirmed` (`src/main.py` lines
89-95): drop every pending transaction whose txid occurs in the mined block's
transaction list. -/
def remove_confirmed (mp : Mempool) (block_txs : List Tx) : Mempool :=
  let txids := block_txs.map (fun tx => tx.txid)
  { mp with transactions :=
      mp.transactions.filter (fun tx => !(txids.contains tx.txid)) }

/-- MempoolOp is a client-visible mempool operation, used to state the
reachable-state invariant of claim C6. -/
inductive MempoolOp where
  | add (tx : Tx)
  | removeConfirmed (block_txs : List Tx)

/-- applyOp runs one mempool operation; a failing `add_transaction` raises and
therefore leaves the pool unchanged. -/
def applyOp (mp : Mempool) (op : MempoolOp) : Mempool :=
  match op with
  | .add tx =>
      match add_transaction mp tx with
      | .ok mp' => mp'
      | .error _ => mp
  | .removeConfirmed block_txs => remove_confirmed mp block_txs

/-- applyOps runs a sequence of mempool operations from left to right. -/
def applyOps (ops : List MempoolOp) (mp : Mempool) : Mempool :=
  ops.foldl applyOp mp

/-- MempoolInv is the mempool invariant of claim C6: bounded size and pairwise
distinct pending txids. -/
def MempoolInv (mp : Mempool) : Prop :=
  mp.transactions.length ≤ mp.max_size ∧ (mp.transactions.map Tx.txid).Nodup

/-- tx1 is a concrete transaction used by witnesses. -/
def tx1 : Tx :=
  { sender := "A", recipient := "B", quantity := 1, fee := 1/100,
    fee_percent := 1/100, txid := "t1", timestamp := 0 }

/-- tx2 is a second concrete transaction used by witnesses. -/
def tx2 : Tx :=
  { sender := "B", recipient := "A", quantity := 2, fee := 2/100,
    fee_percent := 1/100, txid := "t2", timestamp := 1 }

/-- w32 truncates to a 32-bit word. -/
def w32 (n : ℕ) : ℕ := n % 4294967296

/-- rotr32 is a 32-bit right rotation (the argument is a 32-bit word). -/
def rotr32 (x n : ℕ) : ℕ := w32 ((x >>> n) ||| (x <<< (32 - n)))

/-- toBytesBE renders a number as `k` big-endian bytes. -/
def toBytesBE (k n : ℕ) : List ℕ :=
  (List.range k).map (fun i => (n >>> (8 * (k - 1 - i))) % 256)

/-- K256 is the SHA-256 round-constant table (decimal rendering). -/
def K256 : List ℕ :=
  [1116352408, 1899447441, 3049323471, 3921009573, 961987163,
   1508970993, 2453635748, 2870763221, 3624381080, 310598401,
   607225278, 1426881987, 1925078388, 2162078206, 2614888103,
   3248222580, 3835390401, 4022224774, 264347078, 604807628,
   770255983, 1249150122, 1555081692, 1996064986, 2554220882,
   2821834349, 2952996808, 3210313671, 3336571891, 3584528711,
   113926993, 338241895, 666307205, 773529912, 1294757372,
   1396182291, 1695183700, 1986661051, 2177026350, 2456956037,
   2730485921, 2820302411, 3259730800, 3345764771, 3516065817,
   3600352804, 4094571909, 275423344, 430227734, 506948616,
   659060556, 883997877, 958139571, 1322822218, 1537002063,
   1747873779, 1955562222, 2024104815, 2227730452, 2361852424,
   2428436474, 2756734187, 3204031479, 3329325298]

/-- H256 is the SHA-256 initial hash state (decimal rendering). -/
def H256 : List ℕ :=
  [1779033703, 3144134277, 1013904242, 2773480762,
   1359893119, 2600822924, 528734635, 1541459225]

/-- seqNat evaluates its numeric argument before returning the second (both
branches are the same term); it only inserts a strictness point so that the
hash evaluates in the kernel with bounded recursion depth. -/
def seqNat {α : Type} (n : ℕ) (a : α) : α := if n % 2 = 0 then a else a

/-- sha256Schedule extends the 16 message words of a block to 64. -/
def sha256Schedule (ws : List ℕ) : List ℕ :=
  (List.range 48).foldl (fun w _ =>
    let n := w.length
    let w15 := w.getD (n - 15) 0
    let w2 := w.getD (n - 2) 0
    let w16 := w.getD (n - 16) 0
    let w7 := w.getD (n - 7) 0
    let s0 := rotr32 w15 7 ^^^ rotr32 w15 18 ^^^ (w15 >>> 3)
    let s1 := rotr32 w2 17 ^^^ rotr32 w2 19 ^^^ (w2 >>> 10)
    let x := w32 (w16 + s0 + w7 + s1)
    seqNat x (w ++ [x])) ws

/-- sha256Compress runs the SHA-256 compression function on one 64-byte
block. -/
def sha256Compress (hs : List ℕ) (block : List ℕ) : List ℕ :=
  let ws0 := (List.range 16).map (fun j =>
    ((block.getD (4 * j) 0) <<< 24) ||| ((block.getD (4 * j + 1) 0) <<< 16) |||
    ((block.getD (4 * j + 2) 0) <<< 8) ||| block.getD (4 * j + 3) 0)
  let w := sha256Schedule ws0
  let final := (List.range 64).foldl (fun st i =>
    match st with
    | [va, vb, vc, vd, ve, vf, vg, vh] =>
        let S1 := rotr32 ve 6 ^^^ rotr32 ve 11 ^^^ rotr32 ve 25
        let ch := (ve &&& vf) ^^^ ((ve ^^^ 4294967295) &&& vg)
        let temp1 := w32 (vh + S1 + ch + K256.getD i 0 + w.getD i 0)
        let S0 := rotr32 va 2 ^^^ rotr32 va 13 ^^^ rotr32 va 22
        let maj := (va &&& vb) ^^^ (va &&& vc) ^^^ (vb &&& vc)
        let temp2 := w32 (S0 + maj)
        let na := w32 (temp1 + temp2)
        let ne := w32 (vd + temp1)
        seqNat na (seqNat ne [na, va, vb, vc, ne, ve, vf, vg])
    | other => other) hs
  let out := List.zipWith (fun x y => w32 (x + y)) hs final
  seqNat (out.foldl (fun x y => x + y) 0) out

/-- sha256Pad appends the SHA-256 padding: a 0x80 byte, zeros to 56 mod 64,
and the 64-bit big-endian bit length. -/
def sha256Pad (msg : List ℕ) : List ℕ :=
  let len := msg.length
  let r := (len + 1) % 64
  let zeros := (120 - r) % 64
  msg ++ [0x80] ++ List.replicate zeros 0 ++ toBytesBE 8 (len * 8)

/-- chunk64Go splits a byte list into 64-byte blocks, with the block count as
structural fuel so that the definition reduces in the kernel. -/
def chunk64Go : ℕ → List ℕ → List (List ℕ)
  | 0, _ => []
  | fuel + 1, l => l.take 64 :: chunk64Go fuel (l.drop 64)

/-- sha256 is the full SHA-256 digest (32 bytes) of a byte list, embedding
Python's `hashlib.sha256(...).digest()`. -/
def sha256 (msg : List ℕ) : List ℕ :=
  let padded := sha256Pad msg
  let blocks := chunk64Go (padded.length / 64) padded
  let hs := blocks.foldl sha256Compress H256
  hs.foldr (fun wd acc => toBytesBE 4 wd ++ acc) []

/-- charUtf8 encodes one character as UTF-8 bytes (Python `str.encode()`). -/
def charUtf8 (c : Char) : List ℕ :=
  let n := c.toNat
  if n < 0x80 then [n]
  else if n < 0x800 then
    [0xc0 ||| (n >>> 6), 0x80 ||| (n &&& 0x3f)]
  else if n < 0x10000 then
    [0xe0 ||| (n >>> 12), 0x80 ||| ((n >>> 6) &&& 0x3f), 0x80 ||| (n &&& 0x3f)]
  else
    [0xf0 ||| (n >>> 18), 0x80 ||| ((n >>> 12) &&& 0x3f),
     0x80 ||| ((n >>> 6) &&& 0x3f), 0x80 ||| (n &&& 0x3f)]

/-- utf8BytesL encodes a character list as UTF-8 bytes. -/
def utf8BytesL (l : List Char) : List ℕ :=
  l.foldr (fun c acc => charUtf8 c ++ acc) []

/-- utf8Bytes encodes a string as UTF-8 bytes (Python `s.encode()`). -/
def utf8Bytes (s : String) : List ℕ := utf8BytesL s.data

/-- hexAlphabet is the lowercase hex digit alphabet. -/
def hexAlphabet : List Char := "0123456789abcdef".data

/-- hexChar renders one hex digit. -/
def hexChar (n : ℕ) : Char := hexAlphabet.getD n '0'

/-- bytesToHex renders bytes as lowercase hex characters (Python
`.hexdigest()`). -/
def bytesToHex (bs : List ℕ) : List Char :=
  bs.foldr (fun b acc => hexChar (b / 16) :: hexChar (b % 16) :: acc) []

/-- splitDash models Python `s.split("-")` on a character list. -/
def splitDash : List Char → List (List Char)
  | [] => [[]]
  | c :: cs =>
      if c = '-' then [] :: splitDash cs
      else
        match splitDash cs with
        | [] => [[c]]
        | p :: ps => (c :: p) :: ps

/-- intercalateDash models Python `"-".join(parts)` on character lists. -/
def intercalateDash : List (List Char) → List Char
  | [] => []
  | [w] => w
  | w :: ws => w ++ '-' :: intercalateDash ws

/-- WORD_SYLLABLES is the syllable alphabet from which the modelled wordlist
is built. -/
def WORD_SYLLABLES : List String :=
  ["ba", "be", "bi", "bo", "bu", "da", "de", "di", "do", "du",
   "fa", "fe", "fi", "fo", "fu", "ga"]

/-- wordOf is the i-th entry of the modelled wordlist, computed
arithmetically (three syllables, 16 by 16 by 8); `wordlist_getD` below proves
it agrees with positional indexing into `WORDLIST`. -/
def wordOf (i : ℕ) : String :=
  WORD_SYLLABLES.getD (i / 128) "" ++ WORD_SYLLABLES.getD ((i / 8) % 16) "" ++
    WORD_SYLLABLES.getD (i % 8) ""

/-- WORDLIST: Modelled from the spec: the file `src/data/words.txt` that
`main.py` loads at startup (a fixed 2048-entry wordlist, per spec section 3)
is not part of the source tree.  Per the spec, addresses built from it have
exactly 6 dash-separated parts, so its entries are dash-free words; it is
modelled here as the 2048 three-syllable combinations enumerated by
`wordOf`. -/
def WORDLIST : List String := (List.range 2048).map wordOf

/-- GenAddress is the `{"address": ..., "seed": ...}` record returned by
`AddressGen.generate`. -/
structure GenAddress where
  address : String
  seed : String
  deriving DecidableEq, Repr

namespace AddressGen

/-- generate is `AddressGen.generate` (`src/main.py` lines 99-121) for an
explicitly supplied seed (the `seed=None` branch draws fresh randomness and
is outside the deterministic claims): sha256 the seed, pick four words by
16-bit big-endian slices of the digest mod the wordlist length, join with
dashes, and append a 4-hex-character checksum of the phrase.  Python's
`% len(WORDLIST)` and `WORDLIST[i]` appear as `% 2048` and `wordOf i`, which
agree with the modelled list by `wordlist_length` and `wordlist_getD`. -/
def generate (seed : String) : GenAddress :=
  let seed_hash := sha256 (utf8Bytes seed)
  let word_indices := (List.range 4).map (fun j =>
    ((seed_hash.getD (2 * j) 0) * 256 + seed_hash.getD (2 * j + 1) 0) % 2048)
  let words := word_indices.map (fun i => (wordOf i).data)
  let phrase := intercalateDash words
  let checksum := (bytesToHex (sha256 (utf8BytesL phrase))).take 4
  { address := String.mk ('Z' :: 'E' :: 'D' :: '-' :: (phrase ++ '-' :: checksum))
    seed := seed }

/-- validate is `AddressGen.validate` (`src/main.py` lines 123-138): require
the `ZED-` marker at the start, exactly 6 dash-separated parts, and a
checksum matching the 4 leading hex characters of the sha256 of the phrase. -/
def validate (address : String) : Bool :=
  if !(['Z', 'E', 'D', '-'].isPrefixOf address.data) then false
  else
    let parts := splitDash address.data
    if parts.length ≠ 6 then false
    else
      let checksum := parts.getLastD []
      let phrase := intercalateDash (parts.drop 1).dropLast
      let expected_checksum := (bytesToHex (sha256 (utf8BytesL phrase))).take 4
      checksum == expected_checksum

/-- verify_ownership is `AddressGen.verify_ownership` (`src/main.py` lines
140-144): re-derive the address from the seed and compare. -/
def verify_ownership (claimed_address : String) (seed : String) : Bool :=
  (generate seed).address == claimed_address

end AddressGen

/-- block_time_target is the target block interval (5 minutes, seconds). -/
def block_time_target : ℚ := 5 * 60

/-- adjustment_interval is the global retarget period in blocks. -/
def adjustment_interval : ℕ := 12

/-- zedoguard_threshold is the per-window block count considered normal. -/
def zedoguard_threshold : ℕ := 10

/-- zedoguard_window is the per-miner sliding window in seconds. -/
def zedoguard_window : ℚ := 5 * 60

/-- dlookup models Python `d[k]` / `k in d` on a dictionary. -/
def dlookup {α : Type} (d : List (String × α)) (k : String) : Option α :=
  match d with
  | [] => none
  | (k', v) :: rest => if k' = k then some v else dlookup rest k

/-- dinsert models Python `d[k] = v` on a dictionary: replace in place or
append (insertion-ordered dict). -/
def dinsert {α : Type} (d : List (String × α)) (k : String) (v : α) :
    List (String × α) :=
  match d with
  | [] => [(k, v)]
  | (k', v') :: rest =>
      if k' = k then (k, v) :: rest else (k', v') :: dinsert rest k v

/-- Block mirrors the `Block` record (`src/main.py` lines 146-153); the
blake2b block hash is never consulted by the claims and is not modelled. -/
structure Block where
  index : ℕ
  proofN : ℕ
  prev_hash : String
  transactions : List Tx
  timestamp : ℚ
  deriving DecidableEq, Repr

/-- dummyBlock is an arbitrary block used as the (never-consulted) default
of positional lookups. -/
def dummyBlock : Block :=
  { index := 0, proofN := 0, prev_hash := "0", transactions := [], timestamp := 0 }

/-- MinerStat is one entry of `self.miner_stats` (`src/main.py` lines
230-234). -/
structure MinerStat where
  blocks : List ℚ
  multiplier : ℚ
  deriving DecidableEq, Repr

/-- BCState carries the `BlockChain` instance attributes the claims touch
(`src/main.py` lines 189-223).  Attributes never read by a claimed operation
(rewards, nodes, tokens, web3 constants, persistence flags) are omitted. -/
structure BCState where
  chain : List Block
  mempool : Mempool
  balances : List (String × ℚ)
  diff : ℤ
  miner_stats : List (String × MinerStat)
  zedoguard : Bool
  deriving DecidableEq, Repr

/-- get_balance is `BlockChain.get_balance` (`src/main.py` lines 540-541). -/
def get_balance (st : BCState) (user : String) : ℚ := dget st.balances user

/-- adjust_difficulty is `BlockChain.adjust_difficulty` (`src/main.py` lines
281-294): at a positive chain length that is a multiple of the adjustment
interval, compare the last interval's span (Python `chain[-1].timestamp -
chain[-adjustment_interval].timestamp`, i.e. the blocks at positions
`len-1` and `len-adjustment_interval`) with the target, moving `diff` by one
(floor 1); otherwise return `diff` unchanged. -/
def adjust_difficulty (st : BCState) : ℤ :=
  if st.chain.length % adjustment_interval = 0 ∧ 0 < st.chain.length then
    let actual_time :=
      (st.chain.getD (st.chain.length - 1) dummyBlock).timestamp -
      (st.chain.getD (st.chain.length - adjustment_interval) dummyBlock).timestamp
    let expected_time := block_time_target * (adjustment_interval : ℚ)
    let ratio := actual_time / expected_time
    if ratio < 1 then st.diff + 1
    else if 1 < ratio then max 1 (st.diff - 1)
    else st.diff
  else st.diff

/-- C2_claimed_retarget renders claim C2 word for word: the early timestamp
is read at the block whose index is `last − adjustment_interval`, where
`last` is the index of the last block, `chain_length − 1`. -/
def C2_claimed_retarget (chain : List Block) (diff : ℤ) : ℤ :=
  if chain.length % adjustment_interval = 0 ∧ 0 < chain.length then
    let last := chain.length - 1
    let actual :=
      (chain.getD last dummyBlock).timestamp -
      (chain.getD (last - adjustment_interval) dummyBlock).timestamp
    let expected := block_time_target * (adjustment_interval : ℚ)
    if actual < expected then diff + 1
    else if expected < actual then max 1 (diff - 1)
    else diff
  else diff

/-- C2_amended_retarget renders the amended claim C2: identical except that
the early timestamp is read at the block at position
`chain_length − adjustment_interval` (equivalently index
`last − (adjustment_interval − 1)`). -/
def C2_amended_retarget (chain : List Block) (diff : ℤ) : ℤ :=
  if chain.length % adjustment_interval = 0 ∧ 0 < chain.length then
    let actual :=
      (chain.getD (chain.length - 1) dummyBlock).timestamp -
      (chain.getD (chain.length - adjustment_interval) dummyBlock).timestamp
    let expected := block_time_target * (adjustment_interval : ℚ)
    if actual < expected then diff + 1
    else if expected < actual then max 1 (diff - 1)
    else diff
  else diff

/-- update_miner_stats is `BlockChain.update_miner_stats` (`src/main.py`
lines 225-259), statement for statement: ensure the entry exists, append
`now`, prune entries outside the window, append `now` again for non-"node"
miners, then recompute the multiplier from the window count. -/
def update_miner_stats (st : BCState) (miner_address : String) (now : ℚ) :
    BCState :=
  let stats0 :=
    if (dlookup st.miner_stats miner_address).isNone then
      dinsert st.miner_stats miner_address { blocks := [], multiplier := 1 }
    else st.miner_stats
  let s0 := (dlookup stats0 miner_address).getD { blocks := [], multiplier := 1 }
  let b1 := s0.blocks ++ [now]
  let b2 := b1.filter (fun t => decide (now - t < zedoguard_window))
  let b3 := if miner_address ≠ "node" then b2 ++ [now] else b2
  let blocks_in_window := b3.length
  let mult : ℚ :=
    if blocks_in_window ≤ zedoguard_threshold then 1
    else 1 + ((blocks_in_window : ℚ) - (zedoguard_threshold : ℚ)) * (1/2)
  { st with miner_stats :=
      dinsert stats0 miner_address { blocks := b3, multiplier := mult } }

/-- get_miner_difficulty is `BlockChain.get_miner_difficulty` (`src/main.py`
lines 261-279): unknown miners get the global difficulty; known miners get
`int(diff * multiplier)` when the guard flag is on (after resetting a stale
multiplier) and `int(diff * 1.0)` when it is off. -/
def get_miner_difficulty (st : BCState) (miner_address : String) (now : ℚ) :
    ℤ × BCState :=
  match dlookup st.miner_stats miner_address with
  | none => (st.diff, st)
  | some s =>
      let recent_blocks := s.blocks.filter (fun t => decide (now - t < zedoguard_window))
      let stats1 :=
        if recent_blocks.isEmpty then
          dinsert st.miner_stats miner_address { s with multiplier := 1 }
        else st.miner_stats
      let s1 := (dlookup stats1 miner_address).getD s
      if st.zedoguard then
        (pyint ((st.diff : ℚ) * s1.multiplier), { st with miner_stats := stats1 })
      else
        (pyint ((st.diff : ℚ) * 1), { st with miner_stats := stats1 })

/-- PipeResult is the value returned by the transaction pipeline: the Python
success dict `{"status": True, "txid": ..., "fee": ...}`, the failure dict
`{"status": False, "txid": None, "error": ...}`, the bare boolean `False`
that `new_transaction` returns when ownership verification fails, or an
uncaught exception escaping `new_data`. -/
inductive PipeResult where
  | success (txid : String) (fee : ℚ)
  | failure (error : String)
  | pyFalse
  | raised (e : MempoolErr)
  deriving DecidableEq, Repr

/-- new_data is `BlockChain.new_data` (`src/main.py` lines 418-458).  The
`time.time()` samples are the explicit `now` argument and
`calculate_txid` (a blake2b digest of the rendered timestamp and chain
length, `src/main.py` lines 395-397) is the abstract argument `txidOf`,
since no claim depends on digest values.  Note the fund check compares the
available balance against `quantity` alone, the balance mutations precede
mempool admission, and only `MempoolFullError` is caught. -/
def new_data (txidOf : ℚ → ℕ → String) (st : BCState) (now : ℚ)
    (sender recipient : String) (quantity : ℚ) : BCState × PipeResult :=
  let current_fee_percent := get_current_fee_percent st.mempool
  let fee := quantity * current_fee_percent
  let totaltxspend := quantity + fee
  let pending_spends :=
    ((st.mempool.transactions.filter (fun tx => tx.sender == sender)).map
      (fun tx => tx.quantity * (1 + get_current_fee_percent st.mempool))).sum
  let available_balance := get_balance st sender - pending_spends
  if sender ≠ "node" ∧ available_balance < quantity then
    (st, .failure "Insufficient funds")
  else
    let balances1 :=
      if sender ≠ "node" then
        let b1 := dset st.balances sender (dget st.balances sender - totaltxspend)
        dset b1 recipient (dget b1 recipient + quantity)
      else st.balances
    let txid := txidOf now st.chain.length
    let fee1 := if sender = "node" then 0 else fee
    let tx : Tx :=
      { sender := sender, recipient := recipient, quantity := quantity,
        fee := fee1, fee_percent := current_fee_percent, txid := txid,
        timestamp := now }
    match add_transaction st.mempool tx with
    | .ok mp' => ({ st with mempool := mp', balances := balances1 }, .success txid fee1)
    | .error .MempoolFull => ({ st with balances := balances1 }, .failure "Mempool is full")
    | .error .DuplicateTx => ({ st with balances := balances1 }, .raised .DuplicateTx)

/-- new_transaction is `BlockChain.new_transaction` (`src/main.py` lines
399-416): reject structurally invalid addresses with an error record, return
the bare boolean `False` when the seed does not re-derive the sender, and
otherwise delegate to `new_data`. -/
def new_transaction (txidOf : ℚ → ℕ → String) (st : BCState) (now : ℚ)
    (sender recipient : String) (quantity : ℚ) (seed : String) :
    BCState × PipeResult :=
  if !(AddressGen.validate sender) || !(AddressGen.validate recipient) then
    (st, .failure "Invalid address(es)")
  else if !(AddressGen.verify_ownership sender seed) then
    (st, .pyFalse)
  else
    new_data txidOf st now sender recipient quantity

/-- txidConst is the concrete txid assignment used when evaluating the
pipeline at concrete inputs (the digest value itself is never consulted). -/
def txidConst : ℚ → ℕ → String := fun _ _ => "txid0"

/-- baseState is a minimal post-genesis state used by concrete evaluations. -/
def baseState : BCState :=
  { chain := [dummyBlock], mempool := mkMempool, balances := [], diff := 1,
    miner_stats := [], zedoguard := false }

/-- txC is a pending transaction of an unrelated sender, filling a
capacity-one mempool for the C1 evaluation. -/
def txC : Tx :=
  { sender := "C", recipient := "D", quantity := 1, fee := 1/20,
    fee_percent := 1/20, txid := "tc", timestamp := 0 }

/-- st1 is the C1 failing input: sender A holds 5 coins, and the mempool
(capacity 1) is already at capacity with an unrelated pending transaction. -/
def st1 : BCState :=
  { baseState with
      chain := [dummyBlock, dummyBlock, dummyBlock]
      mempool := { mkMempool 1 512 with transactions := [txC] }
      balances := [("A", 5)] }

/-- st5 is the C5 input: an empty mempool and balance[A] = 1. -/
def st5 : BCState := { baseState with balances := [("A", 1)] }

/-- C2ts is the timestamp profile of the C2 counterexample chain: blocks 0-11
arrive at seconds 0-11, block 12 at second 10000, blocks 13-23 one second
apart after it. -/
def C2ts (i : ℕ) : ℚ := if i ≤ 11 then (i : ℚ) else 10000 + ((i : ℚ) - 12)

/-- C2cexChain is a 24-block chain on which the code's retarget window
(positions 12 to 23, spanning 11 seconds) and the claimed window (indices 11
to 23, spanning 10000 seconds) give opposite difficulty moves. -/
def C2cexChain : List Block :=
  (List.range 24).map (fun i => { dummyBlock with index := i, timestamp := C2ts i })

/-- stC2 is the C2 counterexample state: the 24-block chain at difficulty 5. -/
def stC2 : BCState := { baseState with chain := C2cexChain, diff := 5 }

/-- stGuardOn is an empty-stats state with the guard flag enabled, for the C9
witness. -/
def stGuardOn : BCState := { baseState with zedoguard := true, diff := 7 }

/-- seedA is a concrete seed. -/
def seedA : String := "aa"

/-- seedB is a different concrete seed, whose derived address differs from
seedA's. -/
def seedB : String := "bb"

/-- addrA is the address derived from seedA. -/
def addrA : String := (AddressGen.generate seedA).address

lemma mempoolInv_applyOp {mp : Mempool} (h : MempoolInv mp) (op : MempoolOp) :
    MempoolInv (applyOp mp op) := by
  obtain ⟨hlen, hnd⟩ := h
  cases op with
  | add tx =>
      simp only [applyOp, add_transaction]
      split_ifs with h1 h2
      · exact ⟨hlen, hnd⟩
      · exact ⟨hlen, hnd⟩
      · refine ⟨?_, ?_⟩
        · simp only [List.length_append, List.length_cons, List.length_nil]
          omega
        · simp only [List.any_eq_true, beq_iff_eq, not_exists, not_and] at h2
          rw [List.map_append]
          refine List.Nodup.append hnd (by simp) ?_
          intro a ha hb
          simp only [List.map_cons, List.map_nil, List.mem_singleton] at hb
          subst hb
          simp only [List.mem_map] at ha
          obtain ⟨t, ht, htt⟩ := ha
          exact h2 t ht htt
  | removeConfirmed block_txs =>
      refine ⟨le_trans ?_ hlen, ?_⟩
      · simpa [applyOp, remove_confirmed] using
          (List.length_filter_le _ mp.transactions)
      · simp only [applyOp, remove_confirmed]
        exact (hnd.sublist ((List.filter_sublist _).map Tx.txid))

lemma mempoolInv_applyOps (ops : List MempoolOp) :
    ∀ mp : Mempool, MempoolInv mp → MempoolInv (applyOps ops mp) := by
  induction ops with
  | nil => intro mp h; exact h
  | cons op ops ih =>
      intro mp h
      exact ih (applyOp mp op) (mempoolInv_applyOp h op)

/-- C6: starting from an empty mempool, every sequence of `add_transaction`
and `remove_confirmed` operations keeps the pending count within `max_size`
and keeps pending txids pairwise distinct; moreover `add_transaction` fails
with MempoolFull at capacity, fails with DuplicateTx when a pending
transaction shares the txid, and otherwise appends the transaction. -/
theorem C6_mempool_invariant (msz limit : ℕ) (ops : List MempoolOp) (mp : Mempool)
    (hmp : mp = applyOps ops (mkMempool msz limit)) :
    (mp.transactions.length ≤ mp.max_size ∧ (mp.transactions.map Tx.txid).Nodup)
    ∧ ∀ tx : Tx,
        (mp.transactions.length ≥ mp.max_size →
          add_transaction mp tx = .error .MempoolFull)
        ∧ (mp.transactions.length < mp.max_size →
            (∃ t ∈ mp.transactions, t.txid = tx.txid) →
            add_transaction mp tx = .error .DuplicateTx)
        ∧ (mp.transactions.length < mp.max_size →
            (∀ t ∈ mp.transactions, t.txid ≠ tx.txid) →
            add_transaction mp tx = .ok { mp with transactions := mp.transactions ++ [tx] }) := by
  have hinv : MempoolInv mp := by
    rw [hmp]
    exact mempoolInv_applyOps ops _ ⟨by simp [mkMempool], by simp [mkMempool]⟩
  refine ⟨hinv, ?_⟩
  intro tx
  refine ⟨?_, ?_, ?_⟩
  · intro hfull
    simp [add_transaction, hfull]
  · intro hroom hdup
    obtain ⟨t, ht, htx⟩ := hdup
    have hany : mp.transactions.any (fun t => t.txid == tx.txid) = true := by
      simp only [List.any_eq_true, beq_iff_eq]
      exact ⟨t, ht, htx⟩
    simp [add_transaction, Nat.not_le.mpr hroom, hany]
  · intro hroom hnodup
    have hany : mp.transactions.any (fun t => t.txid == tx.txid) = false := by
      simp only [List.any_eq_false, beq_iff_eq]
      exact hnodup
    simp [add_transaction, Nat.not_le.mpr hroom, hany]

/-- C6 witness: at a reachable one-element pool of capacity one, adding fails
MempoolFull; at a reachable one-element pool of capacity two, a txid clash
fails DuplicateTx and a fresh txid appends. -/
theorem C6_mempool_invariant_witness :
    add_transaction (applyOps [MempoolOp.add tx1] (mkMempool 1 512)) tx2
        = .error .MempoolFull
    ∧ add_transaction (applyOps [MempoolOp.add tx1] (mkMempool 2 512))
        { tx2 with txid := "t1" } = .error .DuplicateTx
    ∧ add_transaction (applyOps [MempoolOp.add tx1] (mkMempool 2 512)) tx2
        = .ok { applyOps [MempoolOp.add tx1] (mkMempool 2 512) with
                  transactions :=
                    (applyOps [MempoolOp.add tx1] (mkMempool 2 512)).transactions ++ [tx2] } := by
  have htr : (applyOps [MempoolOp.add tx1] (mkMempool 2 512)).transactions = [tx1] := rfl
  refine ⟨?_, ?_, ?_⟩
  · exact ((C6_mempool_invariant 1 512 [MempoolOp.add tx1] _ rfl).2 tx2).1 (by decide)
  · exact (((C6_mempool_invariant 2 512 [MempoolOp.add tx1] _ rfl).2
      { tx2 with txid := "t1" }).2.1) (by rw [htr]; decide)
      ⟨tx1, by rw [htr]; exact List.mem_singleton.mpr rfl, rfl⟩
  · refine (((C6_mempool_invariant 2 512 [MempoolOp.add tx1] _ rfl).2 tx2).2.2)
      (by rw [htr]; decide) ?_
    intro t ht
    rw [htr] at ht
    rw [List.mem_singleton.mp ht]
    decide

lemma insertFeeDesc_perm (x : Tx) (l : List Tx) :
    (insertFeeDesc x l).Perm (x :: l) := by
  induction l with
  | nil => simp [insertFeeDesc]
  | cons y ys ih =>
      simp only [insertFeeDesc]
      split_ifs with h
      · exact List.Perm.refl _
      · exact (List.Perm.cons y ih).trans (List.Perm.swap x y ys)

lemma sortFeeDesc_perm (l : List Tx) : (sortFeeDesc l).Perm l := by
  induction l with
  | nil => simp [sortFeeDesc]
  | cons x xs ih =>
      exact (insertFeeDesc_perm x (sortFeeDesc xs)).trans (List.Perm.cons x ih)

lemma insertFeeDesc_pairwise (x : Tx) (l : List Tx)
    (h : l.Pairwise (fun a b => b.fee ≤ a.fee)) :
    (insertFeeDesc x l).Pairwise (fun a b => b.fee ≤ a.fee) := by
  induction l with
  | nil => simp [insertFeeDesc]
  | cons y ys ih =>
      simp only [insertFeeDesc]
      rw [List.pairwise_cons] at h
      split_ifs with hle
      · rw [List.pairwise_cons]
        refine ⟨?_, List.pairwise_cons.mpr h⟩
        intro z hz
        rcases List.mem_cons.mp hz with rfl | hz'
        · exact hle
        · exact le_trans (h.1 z hz') hle
      · rw [List.pairwise_cons]
        refine ⟨?_, ih h.2⟩
        intro z hz
        have hz2 := (insertFeeDesc_perm x ys).mem_iff.mp hz
        rcases List.mem_cons.mp hz2 with rfl | hz'
        · exact le_of_lt (lt_of_not_le hle)
        · exact h.1 z hz'

lemma sortFeeDesc_pairwise (l : List Tx) :
    (sortFeeDesc l).Pairwise (fun a b => b.fee ≤ a.fee) := by
  induction l with
  | nil => simp [sortFeeDesc]
  | cons x xs ih => exact insertFeeDesc_pairwise x (sortFeeDesc xs) ih

lemma insertFeeDesc_filter_fee (f : ℚ) (x : Tx) (l : List Tx) :
    (insertFeeDesc x l).filter (fun t => decide (t.fee = f))
      = (x :: l).filter (fun t => decide (t.fee = f)) := by
  induction l with
  | nil => simp [insertFeeDesc]
  | cons y ys ih =>
      simp only [insertFeeDesc]
      split_ifs with hle
      · rfl
      · have h2 : (insertFeeDesc x ys).filter (fun t => decide (t.fee = f))
            = (x :: ys).filter (fun t => decide (t.fee = f)) := ih
        by_cases hx : x.fee = f
        · have hy : ¬ y.fee = f := fun hy => hle (le_of_eq (hy.trans hx.symm))
          simp only [List.filter_cons, h2, decide_eq_true_eq]
          simp [hx, hy]
        · by_cases hy : y.fee = f
          · simp only [List.filter_cons, h2, decide_eq_true_eq]
            simp [hx, hy]
          · simp only [List.filter_cons, h2, decide_eq_true_eq]
            simp [hx, hy]

lemma sortFeeDesc_filter_fee (f : ℚ) (l : List Tx) :
    (sortFeeDesc l).filter (fun t => decide (t.fee = f))
      = l.filter (fun t => decide (t.fee = f)) := by
  induction l with
  | nil => simp [sortFeeDesc]
  | cons x xs ih =>
      simp only [sortFeeDesc]
      rw [insertFeeDesc_filter_fee]
      simp only [List.filter_cons]
      split_ifs with hx
      · rw [ih]
      · exact ih

/-- C7: block candidate selection returns the first
`min (pending count) block_tx_limit` transactions of the pending list stably
sorted by descending fee: candidates are the `block_tx_limit`-truncation of a
fee-descending permutation of the pending list in which the transactions of
any fixed fee keep their original insertion order. -/
theorem C7_block_candidates (mp : Mempool) :
    (get_block_candidates mp).length = min mp.transactions.length mp.block_tx_limit
    ∧ get_block_candidates mp = (sortFeeDesc mp.transactions).take mp.block_tx_limit
    ∧ (sortFeeDesc mp.transactions).Perm mp.transactions
    ∧ (sortFeeDesc mp.transactions).Pairwise (fun a b => b.fee ≤ a.fee)
    ∧ ∀ f : ℚ, (sortFeeDesc mp.transactions).filter (fun t => decide (t.fee = f))
        = mp.transactions.filter (fun t => decide (t.fee = f)) := by
  refine ⟨?_, rfl, sortFeeDesc_perm _, sortFeeDesc_pairwise _, fun f => sortFeeDesc_filter_fee f _⟩
  simp only [get_block_candidates, List.length_take,
    (sortFeeDesc_perm mp.transactions).length_eq]
  exact Nat.min_comm _ _

/-- C10: removing a block's confirmed transactions from the mempool is
idempotent, and the surviving pending transactions keep their relative
order (they form a sublist of the original pending list). -/
theorem C10_remove_confirmed_idempotent (mp : Mempool) (block_txs : List Tx) :
    remove_confirmed (remove_confirmed mp block_txs) block_txs
        = remove_confirmed mp block_txs
    ∧ (remove_confirmed mp block_txs).transactions.Sublist mp.transactions := by
  constructor
  · simp only [remove_confirmed, List.filter_filter]
    congr 1
    simp
  · exact List.filter_sublist _

/-- C1: the Python source returns the MempoolFull error from `new_data` after
having already debited the sender and credited the recipient, and never
reverts; evaluated at a concrete admission that passes the funds check
against a full mempool, the call reports "Mempool is full" while A's balance
has moved from 5 to 3.95 and B's from 0 to 1. -/
theorem C1_mempool_overflow_keeps_balance_mutations :
    (new_data txidConst st1 0 "A" "B" 1).2 = PipeResult.failure "Mempool is full"
    ∧ get_balance st1 "A" = 5
    ∧ get_balance st1 "B" = 0
    ∧ get_balance (new_data txidConst st1 0 "A" "B" 1).1 "A" = 79/20
    ∧ get_balance (new_data txidConst st1 0 "A" "B" 1).1 "B" = 1 :=
  ⟨by decide, by decide, by decide, by decide, by decide⟩

/-- C2 counterexample: on a 24-block chain at difficulty 5 whose code-window
(positions 12..23) is fast but whose claimed window (indices 11..23) is slow,
the code increments the difficulty to 6 while the claim's formula would
decrement it to 4. -/
theorem C2_retarget_claimed_index_counterexample :
    adjust_difficulty stC2 = 6 ∧ C2_claimed_retarget stC2.chain stC2.diff = 4 :=
  ⟨by decide, by decide⟩

/-- C2 amended: the retarget fires exactly at positive multiples of the
adjustment interval and moves `diff` by comparing actual versus expected
span, with the early timestamp read at position
`chain_length − adjustment_interval` (index `last − (adjustment_interval −
1)`), not `last − adjustment_interval`. -/
theorem C2_global_retarget_amended (st : BCState) :
    adjust_difficulty st = C2_amended_retarget st.chain st.diff := by
  by_cases h : st.chain.length % adjustment_interval = 0 ∧ 0 < st.chain.length
  · have h0 : (0:ℚ) < block_time_target * (adjustment_interval : ℚ) := by
      norm_num [block_time_target, adjustment_interval]
    simp only [adjust_difficulty, C2_amended_retarget, if_pos h,
      div_lt_one h0, one_lt_div h0]
  · simp only [adjust_difficulty, C2_amended_retarget, if_neg h]

/-- C3: on a fresh miner entry the Python source appends the current
timestamp twice (once before pruning, where it survives the prune, and once
after), and even the reserved "node" miner gets one appended timestamp; the
claim's exactly-once-for-non-node accounting does not hold. -/
theorem C3_window_append_duplicated :
    (update_miner_stats baseState "M" 1000).miner_stats
        = [("M", { blocks := [1000, 1000], multiplier := 1 })]
    ∧ (update_miner_stats baseState "node" 1000).miner_stats
        = [("node", { blocks := [1000], multiplier := 1 })] :=
  ⟨by decide, by decide⟩

/-- C5 counterexample: with an empty mempool and balance[A] = 1, admitting
A → B with quantity 1 does not fail with InsufficientFunds; the funds check
compares the available balance (1) against the quantity (1) alone, so the
admission succeeds with fee 0.01. -/
theorem C5_insufficient_funds_counterexample :
    (new_data txidConst st5 0 "A" "B" 1).2 = PipeResult.success "txid0" (1/100)
    ∧ (new_data txidConst st5 0 "A" "B" 1).2 ≠ PipeResult.failure "Insufficient funds" :=
  ⟨by decide, by decide⟩

/-- C5 amended: with an empty mempool and balance[A] = 1, admitting A → B
with quantity 1 succeeds (fee 0.01), leaving balance[A] = −0.01 and
balance[B] = 1; rejection requires available balance strictly below the
quantity. -/
theorem C5_admission_succeeds_overdrawing_fee :
    (new_data txidConst st5 0 "A" "B" 1).2 = PipeResult.success "txid0" (1/100)
    ∧ get_balance (new_data txidConst st5 0 "A" "B" 1).1 "A" = -1/100
    ∧ get_balance (new_data txidConst st5 0 "A" "B" 1).1 "B" = 1 :=
  ⟨by decide, by decide, by decide⟩

/-- C9: a miner address with no entry in miner_stats receives exactly the
global difficulty from get_miner_difficulty, whatever the zedoguard flag. -/
theorem C9_unknown_miner_gets_global_difficulty (st : BCState) (addr : String)
    (now : ℚ) (h : dlookup st.miner_stats addr = none) :
    (get_miner_difficulty st addr now).1 = st.diff := by
  simp only [get_miner_difficulty, h]

/-- C9 witness: concrete empty-stats states with the guard flag on (diff 7)
and off (diff 1). -/
theorem C9_unknown_miner_gets_global_difficulty_witness :
    (get_miner_difficulty stGuardOn "X" 0).1 = stGuardOn.diff
    ∧ (get_miner_difficulty baseState "X" 0).1 = baseState.diff :=
  ⟨C9_unknown_miner_gets_global_difficulty stGuardOn "X" 0 rfl,
   C9_unknown_miner_gets_global_difficulty baseState "X" 0 rfl⟩

lemma wordlist_length : WORDLIST.length = 2048 := by
  simp [WORDLIST]

lemma wordlist_getD (i : ℕ) (h : i < 2048) : WORDLIST.getD i "" = wordOf i := by
  simp [WORDLIST, List.getD_eq_getElem?_getD, List.getElem?_map,
    List.getElem?_range h]

lemma getD_mem_or_eq {α : Type} (l : List α) (d : α) (n : ℕ) :
    l.getD n d ∈ l ∨ l.getD n d = d := by
  induction l generalizing n with
  | nil => right; rfl
  | cons a as ih =>
      cases n with
      | zero => left; exact List.mem_cons_self a as
      | succ m =>
          rcases ih m with hm | hm
          · left; exact List.mem_cons_of_mem a hm
          · right; exact hm

lemma noDash_wordOf (i : ℕ) : '-' ∉ (wordOf i).data := by
  have hall : ∀ w ∈ WORD_SYLLABLES, '-' ∉ w.data := by decide
  have hsyl : ∀ n : ℕ, '-' ∉ (WORD_SYLLABLES.getD n "").data := by
    intro n
    rcases getD_mem_or_eq WORD_SYLLABLES "" n with hm | hm
    · exact hall _ hm
    · rw [hm]; decide
  intro hmem
  rw [wordOf] at hmem
  simp only [String.data_append, List.mem_append] at hmem
  rcases hmem with (h | h) | h
  · exact hsyl _ h
  · exact hsyl _ h
  · exact hsyl _ h

lemma noDash_hexChar (n : ℕ) : hexChar n ≠ '-' := by
  have hall : ∀ c ∈ hexAlphabet, c ≠ '-' := by decide
  rw [hexChar]
  rcases getD_mem_or_eq hexAlphabet '0' n with hm | hm
  · exact hall _ hm
  · rw [hm]; decide

lemma noDash_bytesToHex (bs : List ℕ) : '-' ∉ bytesToHex bs := by
  induction bs with
  | nil => simp [bytesToHex]
  | cons b bs ih =>
      simp only [bytesToHex, List.foldr_cons, List.mem_cons] at *
      rintro (h | h | h)
      · exact noDash_hexChar _ h.symm
      · exact noDash_hexChar _ h.symm
      · exact ih h

lemma splitDash_append (l r : List Char) (h : '-' ∉ l) :
    splitDash (l ++ '-' :: r) = l :: splitDash r := by
  induction l with
  | nil => simp [splitDash]
  | cons c cs ih =>
      have hc : ¬ c = '-' := fun e => h (e ▸ List.mem_cons_self c cs)
      have h' : '-' ∉ cs := fun hm => h (List.mem_cons_of_mem _ hm)
      simp only [List.cons_append, splitDash, if_neg hc]
      rw [show cs.append ('-' :: r) = cs ++ '-' :: r from rfl, ih h']

lemma splitDash_noDash (l : List Char) (h : '-' ∉ l) : splitDash l = [l] := by
  induction l with
  | nil => rfl
  | cons c cs ih =>
      have hc : ¬ c = '-' := fun e => h (e ▸ List.mem_cons_self c cs)
      have h' : '-' ∉ cs := fun hm => h (List.mem_cons_of_mem _ hm)
      simp only [splitDash, if_neg hc, ih h']

lemma validate_wellformed (w0 w1 w2 w3 : List Char)
    (h0 : '-' ∉ w0) (h1 : '-' ∉ w1) (h2 : '-' ∉ w2) (h3 : '-' ∉ w3) :
    AddressGen.validate (String.mk ('Z' :: 'E' :: 'D' :: '-' ::
      (intercalateDash [w0, w1, w2, w3] ++ '-' ::
        (bytesToHex (sha256 (utf8BytesL (intercalateDash [w0, w1, w2, w3])))).take 4))) = true := by
  set cs := (bytesToHex (sha256 (utf8BytesL (intercalateDash [w0, w1, w2, w3])))).take 4
    with hcsdef
  have hcs : '-' ∉ cs := fun hm => noDash_bytesToHex _ (List.take_subset _ _ hm)
  have hphrase : intercalateDash [w0, w1, w2, w3]
      = w0 ++ '-' :: (w1 ++ '-' :: (w2 ++ '-' :: w3)) := by
    simp [intercalateDash]
  have hsplit : splitDash ('Z' :: 'E' :: 'D' :: '-' ::
      (intercalateDash [w0, w1, w2, w3] ++ '-' :: cs))
      = [['Z', 'E', 'D'], w0, w1, w2, w3, cs] := by
    rw [hphrase]
    rw [show ('Z' :: 'E' :: 'D' :: '-' ::
        ((w0 ++ '-' :: (w1 ++ '-' :: (w2 ++ '-' :: w3))) ++ '-' :: cs))
      = ['Z', 'E', 'D'] ++ '-' ::
        (w0 ++ '-' :: ((w1 ++ '-' :: (w2 ++ '-' :: w3)) ++ '-' :: cs)) by
        simp [List.append_assoc]]
    rw [splitDash_append _ _ (by decide)]
    rw [splitDash_append _ _ h0]
    rw [show (w1 ++ '-' :: (w2 ++ '-' :: w3)) ++ '-' :: cs
      = w1 ++ '-' :: ((w2 ++ '-' :: w3) ++ '-' :: cs) by simp [List.append_assoc]]
    rw [splitDash_append _ _ h1]
    rw [show (w2 ++ '-' :: w3) ++ '-' :: cs
      = w2 ++ '-' :: (w3 ++ '-' :: cs) by simp [List.append_assoc]]
    rw [splitDash_append _ _ h2]
    rw [splitDash_append _ _ h3]
    rw [splitDash_noDash _ hcs]
  have hpre : ['Z', 'E', 'D', '-'].isPrefixOf ('Z' :: 'E' :: 'D' :: '-' ::
      (intercalateDash [w0, w1, w2, w3] ++ '-' :: cs)) = true := by
    simp [List.isPrefixOf]
  simp only [AddressGen.validate, hpre, hsplit]
  simp [List.getLastD, List.dropLast, intercalateDash, ← hcsdef]
  rw [hcsdef, hphrase]

/-- C8: for every seed, the derived address passes validation and ownership
verification: generation is a pure function of the seed, the produced address
has the `ZED-` marker, six dash-free parts and a matching checksum, and
re-deriving from the same seed reproduces it byte for byte. -/
theorem C8_address_roundtrip (s : String) :
    AddressGen.validate (AddressGen.generate s).address = true
    ∧ AddressGen.verify_ownership (AddressGen.generate s).address s = true := by
  constructor
  · exact validate_wellformed _ _ _ _
      (noDash_wordOf _) (noDash_wordOf _) (noDash_wordOf _) (noDash_wordOf _)
  · simp [AddressGen.verify_ownership]

/-- C4: when the supplied seed does not re-derive the claimed sender address,
`new_transaction` returns the bare Python boolean `False` — not a
`{status=false, error}` record — leaving the state untouched; evaluated at a
structurally valid sender address derived from seed "aa" with the wrong seed
"bb". -/
theorem C4_unauthorized_returns_bare_false :
    new_transaction txidConst st5 0 addrA addrA 1 seedB = (st5, PipeResult.pyFalse)
    ∧ AddressGen.validate addrA = true
    ∧ AddressGen.verify_ownership addrA seedB = false
    ∧ ∀ err : String, PipeResult.pyFalse ≠ PipeResult.failure err := by
  refine ⟨rfl, by decide, by decide, ?_⟩
  intro err
  simp

end Zedovium
